import Mathlib

/-!
# Verification of the SnapFold pipeline (src/snapfold.py)

A shallow embedding of the core pipeline of `snapfold.py`:
file collection (`list_files`), output-path resolution
(`get_unique_output_path`), tree rendering (`generate_tree`) and document
assembly (`bundle_files`).

Filesystem state is passed explicitly: the enumeration produced by
`root.rglob("*")` is a list of paths (each path being its `Path.parts`
component list), and `stat` maps paths to metadata.  The coarse model uses
`Option FileInfo`, where `none` stands for a stat failure that
`Path.is_file` tolerates (errno in pathlib's `_IGNORED_ERRNOS`); the
refined model `StatPy` additionally covers OSErrors that `is_file`
re-raises, such as `PermissionError`.  Fallible code returns
`Except String`.
-/

namespace SnapFold

/-- A filesystem path, as its sequence of components (Python `Path.parts`).
For an absolute path the components of the root and all its ancestors are
included, exactly as in `Path.parts` of the paths yielded by
`root.rglob("*")` on a resolved root. -/
abbrev FsPath := List String

/-- Result of a successful `stat` call: whether the entry is a regular file
and its byte size (`st_size`). -/
structure FileInfo where
  isFile : Bool
  st_size : Nat

/-- The configuration options consumed by the core pipeline (the typed view
of the `config` dict of `snapfold.py`). -/
structure Config where
  ignore : List String
  max_file_size : Nat
  only_formats : List String
  enable_only_formats : Bool
  include_tree : Bool

/-- Index of the last occurrence of `c` in `cs`, if any
(Python `str.rfind`, restricted to the found case). -/
def lastIdxOf (cs : List Char) (c : Char) : Option Nat :=
  match cs with
  | [] => none
  | a :: rest =>
    match lastIdxOf rest c with
    | some i => some (i + 1)
    | none => if a = c then some 0 else none

/-- Python `PurePath.suffix` of a single (final) path component: the part of
the name from its last dot on, but only when that dot is neither the first
nor the last character; otherwise the empty string. -/
def pySuffix (nm : String) : String :=
  match lastIdxOf nm.data '.' with
  | some i => if 0 < i ∧ i + 1 < nm.data.length then String.mk (nm.data.drop i) else ""
  | none => ""

/-- Python `str.lstrip(".")`: drop all leading dots. -/
def lstripDots (s : String) : String :=
  String.mk (s.data.dropWhile (fun c => c = '.'))

/-- Python `str.lower()`: lower-case character by character (the ASCII
range, which is all extensions use). -/
def strLower (s : String) : String :=
  String.mk (s.data.map Char.toLower)

/-- `path.suffix.lstrip(".").lower()` (line 140 of snapfold.py): the
lower-cased extension of the final component, without the leading dot,
empty when there is none. -/
def extOf (p : FsPath) : String :=
  strLower (lstripDots (pySuffix (p.getLast?.getD "")))

/-- Python `Path.is_file()` restricted to the stat outcomes it tolerates:
true exactly when `stat` succeeds and reports a regular file, and `False`
when `stat` fails with an errno in `_IGNORED_ERRNOS`
(ENOENT/ENOTDIR/EBADF/ELOOP, e.g. a broken symlink), the only failures
`none` stands for here.  CPython re-raises any other `OSError` (such as
`PermissionError`); that path is modelled by `is_file_py` below. -/
def is_file (stat : FsPath → Option FileInfo) (p : FsPath) : Bool :=
  match stat p with
  | some fi => fi.isFile
  | none => false

/-- `list_files` (lines 127-144 of snapfold.py): walk the enumeration
produced by `root.rglob("*")`, keep regular files, drop a file when any of
its path components is in the ignore set, when its size exceeds
`max_file_size`, or when the extension allow-list is enabled and its
extension is not listed.  The `.error` branch models the uncaught `OSError`
that `path.stat()` would raise (line 137).  This coarse model covers runs
in which every stat failure is one `is_file` tolerates; `list_files_py`
below refines it with re-raised stat errors and agrees with it on all such
runs (`list_files_py_eq_coarse`). -/
def list_files (enum : List FsPath) (stat : FsPath → Option FileInfo)
    (cfg : Config) : Except String (List FsPath) :=
  match enum with
  | [] => .ok []
  | p :: rest =>
    if is_file stat p then
      if cfg.ignore.any (fun ig => p.contains ig) then
        list_files rest stat cfg
      else
        match stat p with
        | none => .error "OSError"
        | some fi =>
          if cfg.max_file_size < fi.st_size then
            list_files rest stat cfg
          else if cfg.enable_only_formats && !(cfg.only_formats.contains (extOf p)) then
            list_files rest stat cfg
          else
            (list_files rest stat cfg).map (fun l => p :: l)
    else
      list_files rest stat cfg

/-- The inclusion predicate of `list_files`, read off its branches: regular
file, no ignored component, size within the limit, and (when the allow-list
is enabled) a listed extension. -/
def passes (stat : FsPath → Option FileInfo) (cfg : Config) (p : FsPath) : Bool :=
  is_file stat p &&
  !(cfg.ignore.any (fun ig => p.contains ig)) &&
  (match stat p with
   | some fi =>
     decide (fi.st_size ≤ cfg.max_file_size) &&
     (!cfg.enable_only_formats || cfg.only_formats.contains (extOf p))
   | none => false)

/-- `list_files` never fails and returns exactly the enumerated paths that
pass the filter, in enumeration (traversal) order. -/
theorem list_files_eq_filter (enum : List FsPath) (stat : FsPath → Option FileInfo)
    (cfg : Config) :
    list_files enum stat cfg = Except.ok (enum.filter (passes stat cfg)) := by
  induction enum with
  | nil => rfl
  | cons p rest ih =>
    cases hstat : stat p with
    | none =>
      have hf : is_file stat p = false := by simp [is_file, hstat]
      simp [list_files, passes, hf, hstat, ih]
    | some fi =>
      have hf : is_file stat p = fi.isFile := by simp [is_file, hstat]
      cases hisf : fi.isFile with
      | false =>
        simp [list_files, passes, hf, hisf, hstat, ih]
      | true =>
        by_cases hig : ∃ ig ∈ cfg.ignore, ig ∈ p
        · simp [list_files, passes, hf, hisf, hstat, hig, ih]
        · push_neg at hig
          by_cases hsz : cfg.max_file_size < fi.st_size
          · simp [list_files, passes, hf, hisf, hstat, hig, hsz, ih,
              Nat.not_le_of_lt hsz]
          · cases hen : cfg.enable_only_formats with
            | false =>
              simp only [list_files, passes, hf, hisf, hstat, hig, hsz, hen, ih,
                Nat.le_of_not_lt hsz, Except.map, List.filter_cons]
              simp [Nat.le_of_not_lt hsz, hstat]
              rw [if_neg (by push_neg; exact hig), if_pos hig]
            | true =>
              by_cases hfmt : extOf p ∈ cfg.only_formats
              · simp only [list_files, passes, hf, hisf, hstat, hig, hsz, hen,
                  hfmt, ih, Nat.le_of_not_lt hsz, Except.map, List.filter_cons]
                simp [Nat.le_of_not_lt hsz, hstat, hen, hfmt]
                rw [if_neg (by push_neg; exact hig), if_pos hig]
              · simp [list_files, passes, hf, hisf, hstat, hig, hsz, hen,
                  hfmt, ih, Nat.le_of_not_lt hsz]

/-- Membership in the collected list: exactly the enumerated paths that
pass the filter. -/
theorem mem_list_files {enum : List FsPath} {stat : FsPath → Option FileInfo}
    {cfg : Config} {l : List FsPath} (hok : list_files enum stat cfg = Except.ok l)
    {p : FsPath} : p ∈ l ↔ p ∈ enum ∧ passes stat cfg p = true := by
  rw [list_files_eq_filter] at hok
  cases hok
  exact List.mem_filter

/-- Unfolding of `passes` when the metadata of `p` is known. -/
theorem passes_eq_of_stat {stat : FsPath → Option FileInfo} {cfg : Config}
    {p : FsPath} {fi : FileInfo} (hstat : stat p = some fi) :
    passes stat cfg p = true ↔
      fi.isFile = true ∧ (∀ ig ∈ cfg.ignore, ig ∉ p) ∧
      fi.st_size ≤ cfg.max_file_size ∧
      (cfg.enable_only_formats = true → extOf p ∈ cfg.only_formats) := by
  cases hen : cfg.enable_only_formats <;>
    simp [passes, is_file, hstat, hen, and_assoc]

/-- C3: a file is excluded whenever any of its path components,
at any nesting depth, case-sensitively equals a name in the ignore set. -/
theorem ignored_component_always_excluded
    (enum : List FsPath) (stat : FsPath → Option FileInfo) (cfg : Config)
    (l : List FsPath) (p : FsPath) (ig : String)
    (hok : list_files enum stat cfg = Except.ok l)
    (hig : ig ∈ cfg.ignore) (hcomp : ig ∈ p) : p ∉ l := by
  intro hmem
  have hp := ((mem_list_files hok).mp hmem).2
  cases hstat : stat p with
  | none => simp [passes, is_file, hstat] at hp
  | some fi => exact ((passes_eq_of_stat hstat).mp hp).2.1 ig hig hcomp

/-- Witness for C3: `node_modules/pkg/index.js` is excluded when
`node_modules` is ignored. -/
theorem ignored_component_always_excluded_witness :
    ["node_modules", "pkg", "index.js"] ∉ ([] : List FsPath) :=
  ignored_component_always_excluded
    [["node_modules", "pkg", "index.js"]]
    (fun _ => some ⟨true, 1⟩)
    ⟨["node_modules"], 100, [], false, true⟩
    [] ["node_modules", "pkg", "index.js"] "node_modules"
    rfl (by decide) (by decide)

/-- C4: the size comparison is strict: a file whose byte size exceeds
`max_file_size` by at least one byte is always excluded, and a file whose
size is exactly `max_file_size` is always included when no other rule
excludes it. -/
theorem size_limit_is_strict :
    (∀ (enum : List FsPath) (stat : FsPath → Option FileInfo) (cfg : Config)
        (l : List FsPath) (p : FsPath) (fi : FileInfo),
      list_files enum stat cfg = Except.ok l → stat p = some fi →
      cfg.max_file_size < fi.st_size → p ∉ l) ∧
    (∀ (enum : List FsPath) (stat : FsPath → Option FileInfo) (cfg : Config)
        (l : List FsPath) (p : FsPath) (fi : FileInfo),
      list_files enum stat cfg = Except.ok l → p ∈ enum →
      stat p = some fi → fi.isFile = true →
      (∀ ig ∈ cfg.ignore, ig ∉ p) →
      (cfg.enable_only_formats = true → extOf p ∈ cfg.only_formats) →
      fi.st_size = cfg.max_file_size → p ∈ l) := by
  constructor
  · intro enum stat cfg l p fi hok hstat hsz hmem
    have hp := ((mem_list_files hok).mp hmem).2
    have := ((passes_eq_of_stat hstat).mp hp).2.2.1
    omega
  · intro enum stat cfg l p fi hok henum hstat hisf hig hfmt hsz
    refine (mem_list_files hok).mpr ⟨henum, (passes_eq_of_stat hstat).mpr ?_⟩
    exact ⟨hisf, hig, le_of_eq hsz, hfmt⟩

/-- Witness for C4: with `max_file_size = 10`, a 11-byte file is excluded
and a 10-byte file is included. -/
theorem size_limit_is_strict_witness :
    ["big.txt"] ∉ [(["ok.txt"] : FsPath)] ∧
    (["ok.txt"] : FsPath) ∈ [(["ok.txt"] : FsPath)] := by
  refine ⟨size_limit_is_strict.1 [["big.txt"], ["ok.txt"]]
      (fun p => if p = ["big.txt"] then some ⟨true, 11⟩ else some ⟨true, 10⟩)
      ⟨[], 10, [], false, true⟩ [["ok.txt"]] ["big.txt"] ⟨true, 11⟩
      rfl rfl (by decide),
    size_limit_is_strict.2 [["big.txt"], ["ok.txt"]]
      (fun p => if p = ["big.txt"] then some ⟨true, 11⟩ else some ⟨true, 10⟩)
      ⟨[], 10, [], false, true⟩ [["ok.txt"]] ["ok.txt"] ⟨true, 10⟩
      rfl (by decide) rfl rfl (by decide)
      (fun h => by cases h) rfl⟩

/-- C5: when the allow-list flag is enabled, a file whose lower-cased
extension is absent from `only_formats` is excluded; when the flag is
disabled the allow-list has no effect at all on the result. -/
theorem allowlist_enable_semantics :
    (∀ (enum : List FsPath) (stat : FsPath → Option FileInfo) (cfg : Config)
        (l : List FsPath) (p : FsPath),
      list_files enum stat cfg = Except.ok l →
      cfg.enable_only_formats = true → extOf p ∉ cfg.only_formats → p ∉ l) ∧
    (∀ (enum : List FsPath) (stat : FsPath → Option FileInfo)
        (ign : List String) (mx : Nat) (fmts₁ fmts₂ : List String) (it : Bool),
      list_files enum stat ⟨ign, mx, fmts₁, false, it⟩ =
        list_files enum stat ⟨ign, mx, fmts₂, false, it⟩) := by
  constructor
  · intro enum stat cfg l p hok hen hext hmem
    have hp := ((mem_list_files hok).mp hmem).2
    cases hstat : stat p with
    | none => simp [passes, is_file, hstat] at hp
    | some fi => exact hext (((passes_eq_of_stat hstat).mp hp).2.2.2 hen)
  · intro enum stat ign mx fmts₁ fmts₂ it
    rw [list_files_eq_filter, list_files_eq_filter]
    have hsame : ∀ p ∈ enum, passes stat ⟨ign, mx, fmts₁, false, it⟩ p =
        passes stat ⟨ign, mx, fmts₂, false, it⟩ p := by
      intro p _
      cases hstat : stat p with
      | none => simp [passes, is_file, hstat]
      | some fi => simp [passes, is_file, hstat]
    rw [List.filter_congr hsame]

/-- Witness for C5: a `.py` file is dropped under an enabled `html/css/js`
allow-list. -/
theorem allowlist_enable_semantics_witness :
    ["tool.py"] ∉ ([] : List FsPath) :=
  allowlist_enable_semantics.1 [["tool.py"]] (fun _ => some ⟨true, 1⟩)
    ⟨[], 100, ["html", "css", "js"], true, true⟩ [] ["tool.py"]
    rfl rfl (by decide)

/-- Outcome of `os.stat` on a path, as CPython's `Path.is_file`
distinguishes them (pathlib `_IGNORED_ERRNOS` and `_ignore_error`):
`found` is a successful stat; `soft` is an `OSError` whose errno `is_file`
swallows (ENOENT, ENOTDIR, EBADF, ELOOP — e.g. a missing target or broken
symlink), for which it returns `False`; `hard` is any other `OSError`
(e.g. `PermissionError`/EACCES on a readable-but-unsearchable directory),
which `is_file` re-raises. -/
inductive StatPy where
  | found : FileInfo → StatPy
  | soft : StatPy
  | hard : String → StatPy

/-- Whether a stat outcome is one `is_file` re-raises. -/
def StatPy.isHard : StatPy → Bool
  | .hard _ => true
  | _ => false

/-- Python `Path.is_file()`, faithful to CPython: stat, swallow ignorable
errnos as `False`, re-raise anything else. -/
def is_file_py (stat : FsPath → StatPy) (p : FsPath) : Except String Bool :=
  match stat p with
  | .found fi => .ok fi.isFile
  | .soft => .ok false
  | .hard e => .error e

/-- `list_files` (lines 127-144) over the refined stat model: identical to
`list_files`, except that the `is_file()` call at line 134 can itself
re-raise an `OSError`, which propagates uncaught out of the walk. -/
def list_files_py (enum : List FsPath) (stat : FsPath → StatPy)
    (cfg : Config) : Except String (List FsPath) :=
  match enum with
  | [] => .ok []
  | p :: rest =>
    match is_file_py stat p with
    | .error e => .error e
    | .ok false => list_files_py rest stat cfg
    | .ok true =>
      if cfg.ignore.any (fun ig => p.contains ig) then
        list_files_py rest stat cfg
      else
        match stat p with
        | .found fi =>
          if cfg.max_file_size < fi.st_size then
            list_files_py rest stat cfg
          else if cfg.enable_only_formats && !(cfg.only_formats.contains (extOf p)) then
            list_files_py rest stat cfg
          else
            (list_files_py rest stat cfg).map (fun l => p :: l)
        | .soft => .error "OSError"
        | .hard e => .error e

/-- Forget the error class: the view of a refined stat map taken by the
coarse model. -/
def statOpt (stat : FsPath → StatPy) (p : FsPath) : Option FileInfo :=
  match stat p with
  | .found fi => some fi
  | .soft => none
  | .hard _ => none

/-- On an enumeration with no re-raised stat failure, the refined walk
agrees with the coarse one. -/
theorem list_files_py_eq_coarse
    (enum : List FsPath) (stat : FsPath → StatPy) (cfg : Config)
    (hnohard : ∀ q ∈ enum, (stat q).isHard = false) :
    list_files_py enum stat cfg = list_files enum (statOpt stat) cfg := by
  induction enum with
  | nil => rfl
  | cons p rest ih =>
    have hrest : ∀ q ∈ rest, (stat q).isHard = false :=
      fun q hq => hnohard q (List.mem_cons_of_mem p hq)
    have ihr := ih hrest
    cases hstat : stat p with
    | hard e =>
      have hp := hnohard p (List.mem_cons_self p rest)
      rw [hstat] at hp
      simp [StatPy.isHard] at hp
    | soft =>
      simp [list_files_py, list_files, is_file_py, is_file, statOpt, hstat, ihr]
    | found fi =>
      cases hf : fi.isFile with
      | false =>
        simp [list_files_py, list_files, is_file_py, is_file, statOpt, hstat,
          hf, ihr]
      | true =>
        simp [list_files_py, list_files, is_file_py, is_file, statOpt, hstat,
          hf, ihr]

/-- A path whose stat re-raises aborts the whole walk: no list of files is
ever returned. -/
theorem list_files_py_hard_not_ok (stat : FsPath → StatPy) (cfg : Config) :
    ∀ (enum : List FsPath) (p : FsPath) (e : String),
      stat p = StatPy.hard e → p ∈ enum →
      ∀ l, list_files_py enum stat cfg ≠ Except.ok l := by
  intro enum
  induction enum with
  | nil =>
    intro p e hp hmem
    exact absurd hmem (List.not_mem_nil p)
  | cons q rest ih =>
    intro p e hp hmem l hok
    rcases List.mem_cons.mp hmem with rfl | hmem2
    · simp [list_files_py, is_file_py, hp] at hok
    · cases hstat : stat q with
      | hard e2 => simp [list_files_py, is_file_py, hstat] at hok
      | soft =>
        simp only [list_files_py, is_file_py, hstat] at hok
        exact ih p e hp hmem2 l hok
      | found fi =>
        cases hf : fi.isFile with
        | false =>
          simp only [list_files_py, is_file_py, hstat, hf] at hok
          exact ih p e hp hmem2 l hok
        | true =>
          simp only [list_files_py, is_file_py, hstat, hf] at hok
          split at hok
          · exact ih p e hp hmem2 l hok
          · split at hok
            · exact ih p e hp hmem2 l hok
            · split at hok
              · exact ih p e hp hmem2 l hok
              · cases hrec : list_files_py rest stat cfg with
                | ok l2 => exact ih p e hp hmem2 l2 hrec
                | error e3 =>
                  rw [hrec] at hok
                  simp [Except.map] at hok

/-- Stat map of the C8 counterexample: stat of `r/locked` raises
`PermissionError` (EACCES is not in `_IGNORED_ERRNOS`, so `is_file`
re-raises it); `r/good.txt` is a regular 1-byte file. -/
def statHard8 : FsPath → StatPy :=
  fun q => if q = ["r", "locked"] then StatPy.hard "PermissionError"
           else StatPy.found ⟨true, 1⟩

/-- C8 counterexample: with one entry whose stat raises `PermissionError`
— the claim's own named case — the walk crashes with the uncaught
exception, and the remaining readable file is not collected: no file list
is returned at all. -/
theorem permission_error_crashes_walk :
    list_files_py [["r", "locked"], ["r", "good.txt"]] statHard8
        ⟨[], 100, [], false, true⟩ = Except.error "PermissionError" ∧
    ∀ l, list_files_py [["r", "locked"], ["r", "good.txt"]] statHard8
        ⟨[], 100, [], false, true⟩ ≠ Except.ok l :=
  ⟨rfl, fun l h => by cases h⟩

/-- C8 amended: a stat failure that `is_file` ignores (broken symlink,
missing target) is treated as excluded and the walk survives, returning
the filtered remaining files; a stat failure that `is_file` re-raises
(e.g. a permission error) propagates out of `list_files`: the walk
crashes and no file list is returned. -/
theorem stat_failure_soft_excluded_hard_crashes :
    (∀ (enum : List FsPath) (stat : FsPath → StatPy) (cfg : Config)
        (p : FsPath),
      (∀ q ∈ enum, (stat q).isHard = false) → stat p = StatPy.soft →
      list_files_py enum stat cfg =
        Except.ok (enum.filter (passes (statOpt stat) cfg)) ∧
      p ∉ enum.filter (passes (statOpt stat) cfg)) ∧
    (∀ (enum : List FsPath) (stat : FsPath → StatPy) (cfg : Config)
        (p : FsPath) (e : String),
      stat p = StatPy.hard e → p ∈ enum →
      ∀ l, list_files_py enum stat cfg ≠ Except.ok l) := by
  constructor
  · intro enum stat cfg p hnohard hsoft
    have hb := list_files_py_eq_coarse enum stat cfg hnohard
    have hc := list_files_eq_filter enum (statOpt stat) cfg
    refine ⟨hb.trans hc, ?_⟩
    intro hmem
    have hpass := (List.mem_filter.mp hmem).2
    have hnone : statOpt stat p = none := by simp [statOpt, hsoft]
    simp [passes, is_file, hnone] at hpass
  · intro enum stat cfg p e hp hmem
    exact list_files_py_hard_not_ok stat cfg enum p e hp hmem

/-- Stat map of the C8 witness: `r/broken` fails with an errno `is_file`
ignores, `r/good` is a regular 1-byte file. -/
def statSoft8 : FsPath → StatPy :=
  fun q => if q = ["r", "broken"] then StatPy.soft else StatPy.found ⟨true, 1⟩

/-- Witness for C8: the softly failing entry is dropped while the file
next to it is still collected, and a walk over an entry with a re-raised
stat failure returns no list. -/
theorem stat_failure_soft_excluded_hard_crashes_witness :
    (list_files_py [["r", "broken"], ["r", "good"]] statSoft8
        ⟨[], 100, [], false, true⟩ =
      Except.ok ([["r", "broken"], ["r", "good"]].filter
        (passes (statOpt statSoft8) ⟨[], 100, [], false, true⟩)) ∧
      ["r", "broken"] ∉ [["r", "broken"], ["r", "good"]].filter
        (passes (statOpt statSoft8) ⟨[], 100, [], false, true⟩)) ∧
    (∀ l, list_files_py [["r", "locked"], ["r", "good.txt"]] statHard8
        ⟨[], 100, [], false, true⟩ ≠ Except.ok l) :=
  ⟨stat_failure_soft_excluded_hard_crashes.1 [["r", "broken"], ["r", "good"]]
      statSoft8 ⟨[], 100, [], false, true⟩ ["r", "broken"] (by decide) rfl,
    fun l => stat_failure_soft_excluded_hard_crashes.2
      [["r", "locked"], ["r", "good.txt"]] statHard8 ⟨[], 100, [], false, true⟩
      ["r", "locked"] "PermissionError" rfl (by decide) l⟩

/-- C10: ignore names are matched against the full path as produced by
traversal, including the components of the scan root and its ancestors: if
an ancestor component of every enumerated path is ignored, the result is
the empty list. -/
theorem ignored_root_ancestor_empties_walk
    (enum : List FsPath) (stat : FsPath → Option FileInfo) (cfg : Config)
    (rootParts : List String)
    (hroot : ∀ p ∈ enum, rootParts <+: p)
    (hig : ∃ ig ∈ cfg.ignore, ig ∈ rootParts) :
    list_files enum stat cfg = Except.ok [] := by
  rw [list_files_eq_filter]
  congr 1
  rw [List.filter_eq_nil_iff]
  intro p hp
  obtain ⟨ig, higmem, higcomp⟩ := hig
  intro hpass
  cases hstat : stat p with
  | none => simp [passes, is_file, hstat] at hpass
  | some fi =>
    exact ((passes_eq_of_stat hstat).mp hpass).2.1 ig higmem
      ((hroot p hp).subset higcomp)

/-- Witness for C10: with the scan root living under an ignored directory
name, the walk collects nothing. -/
theorem ignored_root_ancestor_empties_walk_witness :
    list_files [["home", "node_modules", "proj", "a.js"]]
      (fun _ => some ⟨true, 1⟩)
      ⟨["node_modules"], 100, [], false, true⟩ = Except.ok [] :=
  ignored_root_ancestor_empties_walk
    [["home", "node_modules", "proj", "a.js"]]
    (fun _ => some ⟨true, 1⟩)
    ⟨["node_modules"], 100, [], false, true⟩
    ["home", "node_modules", "proj"]
    (by decide) ⟨"node_modules", by decide, by decide⟩

/-- C7 counterexample: on a missing (or non-directory) scan root,
`Path.rglob` yields no entries (CPython pathlib behaviour, checked on
3.11: globbing a nonexistent root silently produces nothing), so
`list_files` returns `ok []` and never the NotFound/InvalidRoot error the
specification promises. -/
theorem missing_root_returns_ok_empty :
    list_files [] (fun _ => none) ⟨["node_modules"], 100, [], false, true⟩ =
      Except.ok [] ∧
    ∀ e, list_files [] (fun _ => none)
        ⟨["node_modules"], 100, [], false, true⟩ ≠ Except.error e := by
  exact ⟨rfl, fun e h => by cases h⟩

/-- C7 amended: on a missing or non-directory root the enumeration is
empty and `list_files` silently returns the empty list, with no error. -/
theorem missing_root_silent_empty
    (stat : FsPath → Option FileInfo) (cfg : Config) :
    list_files [] stat cfg = Except.ok [] := rfl

/-- C6: `list_files` performs no sorting: it returns the passing files in
raw enumeration (traversal) order, so an enumeration that is not lexically
sorted yields an unsorted result, contradicting the mandated deterministic
lexical order. -/
theorem traversal_order_not_lexical :
    list_files [["r", "b.txt"], ["r", "a.txt"]]
        (fun _ => some ⟨true, 1⟩) ⟨[], 100, [], false, true⟩ =
      Except.ok [["r", "b.txt"], ["r", "a.txt"]] ∧
    ¬ List.Pairwise
        (fun p q : FsPath => String.intercalate "/" p ≤ String.intercalate "/" q)
        [["r", "b.txt"], ["r", "a.txt"]] := by
  refine ⟨rfl, fun h => ?_⟩
  have h2 : String.intercalate "/" ["r", "b.txt"] ≤
      String.intercalate "/" ["r", "a.txt"] :=
    List.rel_of_pairwise_cons h (List.mem_singleton.mpr rfl)
  have h3 : ("r/b.txt" : String) ≤ "r/a.txt" := h2
  rw [String.le_iff_toList_le] at h3
  revert h3
  decide

/-- Decimal digit list of `n`, most significant digit first: the value that
`Nat.toDigits 10` computes once its fuel is large enough. -/
def decDigits (n : Nat) : List Char :=
  if _h : n < 10 then [Nat.digitChar n]
  else decDigits (n / 10) ++ [Nat.digitChar (n % 10)]
termination_by n
decreasing_by exact Nat.div_lt_self (by omega) (by omega)

/-- One-step unfolding of `decDigits` below 10. -/
theorem decDigits_of_lt {n : Nat} (h : n < 10) :
    decDigits n = [Nat.digitChar n] := by
  rw [decDigits.eq_def]
  simp [h]

/-- One-step unfolding of `decDigits` at 10 and above. -/
theorem decDigits_of_ge {n : Nat} (h : ¬ n < 10) :
    decDigits n = decDigits (n / 10) ++ [Nat.digitChar (n % 10)] := by
  rw [decDigits.eq_def]
  simp [h]

/-- With sufficient fuel, `Nat.toDigitsCore` produces `decDigits` followed
by the accumulator. -/
theorem toDigitsCore_eq_decDigits :
    ∀ (fuel n : Nat) (ds : List Char), n < fuel →
      Nat.toDigitsCore 10 fuel n ds = decDigits n ++ ds := by
  intro fuel
  induction fuel with
  | zero => intro n ds h; omega
  | succ f ih =>
    intro n ds h
    by_cases h10 : n < 10
    · have hdiv : n / 10 = 0 := Nat.div_eq_of_lt h10
      simp [Nat.toDigitsCore, hdiv, decDigits_of_lt h10, Nat.mod_eq_of_lt h10]
    · have hdiv : ¬ n / 10 = 0 := by
        rw [Nat.div_eq_zero_iff (by omega)]
        omega
      have hlt : n / 10 < f := by
        have hx : n / 10 < n := Nat.div_lt_self (by omega) (by omega)
        omega
      simp only [Nat.toDigitsCore, hdiv, if_false, ite_false]
      rw [ih (n / 10) (Nat.digitChar (n % 10) :: ds) hlt,
        decDigits_of_ge h10]
      simp

/-- The numeric value of a decimal digit character produced by
`Nat.digitChar`. -/
theorem digitChar_toNat (d : Nat) (h : d < 10) :
    (Nat.digitChar d).toNat = 48 + d := by
  interval_cases d <;> rfl

/-- Decimal decoding: fold the digits back into the number. -/
def decVal (cs : List Char) : Nat :=
  cs.foldl (fun a c => 10 * a + (c.toNat - 48)) 0

/-- Round trip: decoding the decimal digits of `n` recovers `n`. -/
theorem decVal_decDigits (n : Nat) : decVal (decDigits n) = n := by
  induction n using Nat.strong_induction_on with
  | _ n ih =>
    by_cases h10 : n < 10
    · rw [decDigits_of_lt h10]
      simp only [decVal, List.foldl]
      rw [digitChar_toNat n h10]
      omega
    · have hdivlt : n / 10 < n := Nat.div_lt_self (by omega) (by omega)
      have hmod : n % 10 < 10 := Nat.mod_lt _ (by omega)
      rw [decDigits_of_ge h10]
      show List.foldl _ 0 _ = n
      rw [List.foldl_append]
      have hih := ih (n / 10) hdivlt
      show 10 * decVal (decDigits (n / 10)) + ((Nat.digitChar (n % 10)).toNat - 48) = n
      rw [hih, digitChar_toNat (n % 10) hmod]
      omega

/-- `Nat.repr` is `decDigits` packaged as a string. -/
theorem repr_eq_decDigits (n : Nat) : Nat.repr n = (decDigits n).asString := by
  show (Nat.toDigits 10 n).asString = _
  rw [Nat.toDigits, toDigitsCore_eq_decDigits (n + 1) n [] (Nat.lt_succ_self n)]
  simp

/-- Decimal representations of distinct naturals are distinct. -/
theorem nat_repr_injective : Function.Injective Nat.repr := by
  intro m n h
  rw [repr_eq_decDigits, repr_eq_decDigits] at h
  have hdata : decDigits m = decDigits n := by
    have h2 := congrArg String.data h
    simpa [List.asString] using h2
  have h3 := congrArg decVal hdata
  rwa [decVal_decDigits, decVal_decDigits] at h3

theorem decDigits_ne_nil (n : Nat) : decDigits n ≠ [] := by
  by_cases h10 : n < 10
  · rw [decDigits_of_lt h10]
    simp
  · rw [decDigits_of_ge h10]
    simp

/-- A decimal representation is never the empty string. -/
theorem repr_length_pos (n : Nat) : 0 < (Nat.repr n).length := by
  rw [repr_eq_decDigits]
  cases hd : decDigits n with
  | nil => exact absurd hd (decDigits_ne_nil n)
  | cons a l => simp [List.asString, String.length]

/-- The candidate file name probed at step `i` of the `increment` loop
(lines 161-167 of snapfold.py): `stem+ext` for `i = 1`, `stem(i)ext`
afterwards. -/
def incrName (stem ext : String) (i : Nat) : String :=
  if i = 1 then stem ++ ext else stem ++ "(" ++ Nat.repr i ++ ")" ++ ext

/-- Distinct probe indices give distinct candidate names. -/
theorem incrName_injOn (stem ext : String) {i j : Nat} (hi : 1 ≤ i) (hj : 1 ≤ j)
    (h : incrName stem ext i = incrName stem ext j) : i = j := by
  by_cases hi1 : i = 1 <;> by_cases hj1 : j = 1
  · omega
  · exfalso
    rw [incrName, incrName, if_pos hi1, if_neg hj1] at h
    have hlen := congrArg String.length h
    simp only [String.length_append] at hlen
    have hpos := repr_length_pos j
    have h1 : ("(" : String).length = 1 := rfl
    have h2 : (")" : String).length = 1 := rfl
    omega
  · exfalso
    rw [incrName, incrName, if_neg hi1, if_pos hj1] at h
    have hlen := congrArg String.length h
    simp only [String.length_append] at hlen
    have hpos := repr_length_pos i
    have h1 : ("(" : String).length = 1 := rfl
    have h2 : (")" : String).length = 1 := rfl
    omega
  · rw [incrName, incrName, if_neg hi1, if_neg hj1] at h
    have hd := congrArg String.data h
    simp only [String.data_append] at hd
    have hd2 := (List.append_inj' hd rfl).1
    have hd3 := (List.append_inj' hd2 rfl).1
    have hd4 : (Nat.repr i).data = (Nat.repr j).data :=
      List.append_inj_right hd3 rfl
    exact nat_repr_injective (String.ext hd4)

/-- The probing loop of the `increment` branch (lines 162-166): starting at
index `i`, return the first candidate name that does not exist in `fs`.
The fuel argument only bounds the recursion; `fs.length + 1` steps always
suffice (`exists_free_name`). -/
def incrLoop (fs : List String) (stem ext : String) : Nat → Nat → String
  | 0, i => incrName stem ext i
  | fuel + 1, i =>
    if incrName stem ext i ∈ fs then incrLoop fs stem ext fuel (i + 1)
    else incrName stem ext i

/-- When some candidate within the fuel bound is free, the loop stops at
the first free candidate. -/
theorem incrLoop_spec (stem ext : String) (fs : List String) :
    ∀ (fuel i : Nat), (∃ k, k ≤ fuel ∧ incrName stem ext (i + k) ∉ fs) →
      ∃ k, k ≤ fuel ∧ incrLoop fs stem ext fuel i = incrName stem ext (i + k) ∧
        incrName stem ext (i + k) ∉ fs ∧
        ∀ m, m < k → incrName stem ext (i + m) ∈ fs := by
  intro fuel
  induction fuel with
  | zero =>
    rintro i ⟨k, hk, hfree⟩
    have hk0 : k = 0 := by omega
    subst hk0
    exact ⟨0, Nat.le_refl 0, rfl, hfree, fun m hm => absurd hm (by omega)⟩
  | succ f ih =>
    rintro i ⟨k, hk, hfree⟩
    by_cases hmem : incrName stem ext i ∈ fs
    · have hk0 : k ≠ 0 := by
        rintro rfl
        rw [Nat.add_zero] at hfree
        exact hfree hmem
      obtain ⟨k', rfl⟩ : ∃ k', k = k' + 1 := ⟨k - 1, by omega⟩
      have hex : ∃ k2, k2 ≤ f ∧ incrName stem ext ((i + 1) + k2) ∉ fs := by
        refine ⟨k', by omega, ?_⟩
        have harith : (i + 1) + k' = i + (k' + 1) := by omega
        rw [harith]
        exact hfree
      obtain ⟨k2, hk2, heq, hfree2, hmin2⟩ := ih (i + 1) hex
      refine ⟨k2 + 1, by omega, ?_, ?_, ?_⟩
      · rw [incrLoop, if_pos hmem, heq]
        congr 1
        omega
      · have harith : i + (k2 + 1) = (i + 1) + k2 := by omega
        rw [harith]
        exact hfree2
      · intro m hm
        cases m with
        | zero => rw [Nat.add_zero]; exact hmem
        | succ m2 =>
          have harith : i + (m2 + 1) = (i + 1) + m2 := by omega
          rw [harith]
          exact hmin2 m2 (by omega)
    · refine ⟨0, by omega, ?_, ?_, fun m hm => absurd hm (by omega)⟩
      · rw [incrLoop, if_neg hmem, Nat.add_zero]
      · rw [Nat.add_zero]; exact hmem

/-- Pigeonhole: among the first `fs.length + 2` candidate names (which are
pairwise distinct), at least one is not in `fs`. -/
theorem exists_free_name (fs : List String) (stem ext : String) :
    ∃ k, k ≤ fs.length + 1 ∧ incrName stem ext (1 + k) ∉ fs := by
  by_contra hall
  push_neg at hall
  have hinj : Function.Injective (fun k : Nat => incrName stem ext (1 + k)) := by
    intro a b hab
    have := incrName_injOn stem ext (i := 1 + a) (j := 1 + b)
      (by omega) (by omega) hab
    omega
  have hnodup : ((List.range (fs.length + 2)).map
      (fun k => incrName stem ext (1 + k))).Nodup :=
    (List.nodup_range _).map hinj
  have hsub : ∀ x ∈ (List.range (fs.length + 2)).map
      (fun k => incrName stem ext (1 + k)), x ∈ fs := by
    intro x hx
    rw [List.mem_map] at hx
    obtain ⟨k, hk, rfl⟩ := hx
    rw [List.mem_range] at hk
    exact hall k (by omega)
  have hcard1 : ((List.range (fs.length + 2)).map
      (fun k => incrName stem ext (1 + k))).toFinset.card = fs.length + 2 := by
    rw [List.toFinset_card_of_nodup hnodup, List.length_map, List.length_range]
  have hcard2 : ((List.range (fs.length + 2)).map
      (fun k => incrName stem ext (1 + k))).toFinset.card ≤ fs.toFinset.card := by
    apply Finset.card_le_card
    intro x hx
    rw [List.mem_toFinset] at hx ⊢
    exact hsub x hx
  have hcard3 : fs.toFinset.card ≤ fs.length := List.toFinset_card_le fs
  omega

/-- `get_unique_output_path` (lines 147-173 of snapfold.py).  `fs` is the
set of file names already existing in the output folder (the paths checked
by `final_path.exists()`), `outStem`/`outSuffix` are `out.stem` and
`out.suffix`, and `now` is the minute-granularity timestamp string.  The
`folder.mkdir` side effect and the folder prefix itself are outside the
model: all names are relative to the output folder. -/
def get_unique_output_path (fs : List String)
    (outStem outSuffix naming_mode now : String) : String :=
  let ext := if outSuffix = "" then ".md" else outSuffix
  if naming_mode = "timestamp" then outStem ++ "-" ++ now ++ ext
  else if naming_mode = "increment" then incrLoop fs outStem ext (fs.length + 1) 1
  else if naming_mode = "overwrite" then outStem ++ ext
  else outStem ++ "-" ++ now ++ ext

/-- C2: under the `increment` policy the resolver returns the first
candidate `stem+ext`, `stem(2)ext`, `stem(3)ext`, … that does not already
exist, so the resolved path never already exists; in particular three
successive resolutions in an initially empty folder give `name.md`,
`name(2).md`, `name(3).md`. -/
theorem increment_naming_resolves_first_free :
    (∀ (fs : List String) (stem ext now : String),
      ∃ i, 1 ≤ i ∧
        get_unique_output_path fs stem ext "increment" now =
          incrName stem (if ext = "" then ".md" else ext) i ∧
        get_unique_output_path fs stem ext "increment" now ∉ fs ∧
        ∀ j, 1 ≤ j → j < i →
          incrName stem (if ext = "" then ".md" else ext) j ∈ fs) ∧
    get_unique_output_path [] "name" ".md" "increment" "t" = "name.md" ∧
    get_unique_output_path ["name.md"] "name" ".md" "increment" "t" =
      "name(2).md" ∧
    get_unique_output_path ["name.md", "name(2).md"] "name" ".md" "increment"
      "t" = "name(3).md" := by
  refine ⟨?_, by decide, by decide, by decide⟩
  intro fs stem ext now
  have hred : get_unique_output_path fs stem ext "increment" now =
      incrLoop fs stem (if ext = "" then ".md" else ext) (fs.length + 1) 1 := rfl
  obtain ⟨k0, hk0, hfree0⟩ :=
    exists_free_name fs stem (if ext = "" then ".md" else ext)
  obtain ⟨k, hk, heq, hfree, hmin⟩ :=
    incrLoop_spec stem (if ext = "" then ".md" else ext) fs (fs.length + 1) 1
      ⟨k0, hk0, hfree0⟩
  refine ⟨1 + k, by omega, ?_, ?_, ?_⟩
  · rw [hred, heq]
  · rw [hred, heq]
    exact hfree
  · intro j hj1 hjlt
    have hm := hmin (j - 1) (by omega)
    have harith : 1 + (j - 1) = j := by omega
    rwa [harith] at hm

/-- Witness for C2: resolving in a folder already holding `name.md` yields
a path that does not exist there. -/
theorem increment_naming_resolves_first_free_witness :
    get_unique_output_path ["name.md"] "name" ".md" "increment" "t" ∉
      ["name.md"] := by
  obtain ⟨i, -, -, hfree, -⟩ :=
    increment_naming_resolves_first_free.1 ["name.md"] "name" ".md" "t"
  exact hfree

/-- A node of the tree built by `generate_tree`: Python's nested dict, with
`None` marking a file.  A directory is an association list of children in
insertion order. -/
inductive PTree where
  | file : PTree
  | dir : List (String × PTree) → PTree

/-- `sorted(subtree.items())` (line 191): sort the children by name (keys
are unique, so the value component never takes part in the comparison). -/
def sortItems (m : List (String × PTree)) : List (String × PTree) :=
  m.mergeSort (fun a b => decide (a.1 ≤ b.1))

/-- `sizeOf` of a list is invariant under permutation. -/
theorem sizeOf_perm {α : Type} [SizeOf α] {l₁ l₂ : List α}
    (h : l₁.Perm l₂) : sizeOf l₁ = sizeOf l₂ := by
  induction h with
  | nil => rfl
  | cons a _ ih => simp only [List.cons.sizeOf_spec]; omega
  | swap a b l => simp only [List.cons.sizeOf_spec]; omega
  | trans _ _ ih1 ih2 => omega

theorem sizeOf_sortItems (m : List (String × PTree)) :
    sizeOf (sortItems m) = sizeOf m :=
  sizeOf_perm (List.mergeSort_perm m _)

mutual

/-- The body of `render` (lines 191-196): children enumerated with index
`i` out of `total`; the connector is `└── ` exactly when `i` is the last
index (`i == len(subtree)-1`) and `├── ` otherwise, and a directory child
recurses with the prefix extended by four spaces (last child) or by
`│   ` (other children). -/
def renderItems (l : List (String × PTree)) (i total : Nat) (pre : String) :
    String :=
  match l with
  | [] => ""
  | (nm, t) :: rest =>
    pre ++ (if i = total - 1 then "└── " else "├── ") ++ nm ++ "\n" ++
      (match t with
       | .file => ""
       | .dir cs =>
         renderTree cs (pre ++ (if i = total - 1 then "    " else "│   "))) ++
      renderItems rest (i + 1) total pre
termination_by (sizeOf l, 0)
decreasing_by
  · apply Prod.Lex.left
    simp only [List.cons.sizeOf_spec, Prod.mk.sizeOf_spec, PTree.dir.sizeOf_spec]
    omega
  · apply Prod.Lex.left
    simp only [List.cons.sizeOf_spec]
    omega

/-- `render(subtree, prefix)` (lines 189-197): sort the children, then emit
them with indices `0 … len-1`. -/
def renderTree (m : List (String × PTree)) (pre : String) : String :=
  renderItems (sortItems m) 0 (sortItems m).length pre
termination_by (sizeOf m, 1)
decreasing_by
  rw [sizeOf_sortItems]
  exact Prod.Lex.right _ (by omega)

end

mutual

/-- The renderer as the specification words it: among the (lexically
sorted) children of a level, the last child uses the closing connector
`└── ` and extends the prefix of its subtree by four spaces; every other
child uses `├── ` and extends the prefix by `│   `. -/
def renderSpecItems (l : List (String × PTree)) (pre : String) : String :=
  match l with
  | [] => ""
  | [(nm, t)] =>
    pre ++ "└── " ++ nm ++ "\n" ++
      (match t with
       | .file => ""
       | .dir cs => renderSpecTree cs (pre ++ "    "))
  | (nm, t) :: r :: rs =>
    pre ++ "├── " ++ nm ++ "\n" ++
      (match t with
       | .file => ""
       | .dir cs => renderSpecTree cs (pre ++ "│   ")) ++
      renderSpecItems (r :: rs) pre
termination_by (sizeOf l, 0)
decreasing_by
  · apply Prod.Lex.left
    simp only [List.cons.sizeOf_spec, Prod.mk.sizeOf_spec, PTree.dir.sizeOf_spec]
    omega
  · apply Prod.Lex.left
    simp only [List.cons.sizeOf_spec, Prod.mk.sizeOf_spec, PTree.dir.sizeOf_spec]
    omega
  · apply Prod.Lex.left
    simp only [List.cons.sizeOf_spec]
    omega

/-- Spec-side rendering of one level: lexically sorted children. -/
def renderSpecTree (m : List (String × PTree)) (pre : String) : String :=
  renderSpecItems (sortItems m) pre
termination_by (sizeOf m, 1)
decreasing_by
  rw [sizeOf_sortItems]
  exact Prod.Lex.right _ (by omega)

end

/-- The index-based renderer agrees with the structural, spec-worded one,
whenever `total` is consistent with the enumeration (`total = i + l.length`,
as at every call site). -/
theorem render_eq_aux :
    ∀ n : Nat, ∀ l : List (String × PTree), sizeOf l ≤ n →
      ∀ (i total : Nat) (pre : String), total = i + l.length →
        renderItems l i total pre = renderSpecItems l pre := by
  intro n
  induction n using Nat.strong_induction_on with
  | _ n ih =>
    intro l hsz i total pre htot
    match l with
    | [] => simp [renderItems, renderSpecItems]
    | [(nm, t)] =>
      have hlast : i = total - 1 := by
        simp only [List.length_cons, List.length_nil] at htot
        omega
      cases t with
      | file =>
        simp [renderItems, renderSpecItems, hlast]
      | dir cs =>
        have hcs : sizeOf cs < n := by
          have h1 : sizeOf cs < sizeOf [(nm, PTree.dir cs)] := by
            simp only [List.cons.sizeOf_spec, Prod.mk.sizeOf_spec,
              PTree.dir.sizeOf_spec]
            omega
          omega
        have hsub : renderTree cs (pre ++ "    ") =
            renderSpecTree cs (pre ++ "    ") := by
          have hrec := ih (sizeOf (sortItems cs))
            (by rw [sizeOf_sortItems]; exact hcs)
            (sortItems cs) (le_refl _) 0 (sortItems cs).length (pre ++ "    ")
            (by simp)
          simp [renderTree, renderSpecTree, hrec]
        simp [renderItems, renderSpecItems, hlast, hsub]
    | (nm, t) :: r :: rs =>
      have hnotlast : ¬ i = total - 1 := by
        simp only [List.length_cons] at htot
        omega
      have htail : renderItems (r :: rs) (i + 1) total pre =
          renderSpecItems (r :: rs) pre := by
        have hlt : sizeOf (r :: rs) < n := by
          have h1 : sizeOf (r :: rs) < sizeOf ((nm, t) :: r :: rs) := by
            simp only [List.cons.sizeOf_spec]
            omega
          omega
        exact ih (sizeOf (r :: rs)) hlt (r :: rs) (le_refl _) (i + 1) total pre
          (by simp only [List.length_cons] at htot ⊢; omega)
      cases t with
      | file =>
        simp [renderItems, renderSpecItems, hnotlast, htail]
      | dir cs =>
        have hcs : sizeOf cs < n := by
          have h1 : sizeOf cs < sizeOf ((nm, PTree.dir cs) :: r :: rs) := by
            simp only [List.cons.sizeOf_spec, Prod.mk.sizeOf_spec,
              PTree.dir.sizeOf_spec]
            omega
          omega
        have hsub : renderTree cs (pre ++ "│   ") =
            renderSpecTree cs (pre ++ "│   ") := by
          have hrec := ih (sizeOf (sortItems cs))
            (by rw [sizeOf_sortItems]; exact hcs)
            (sortItems cs) (le_refl _) 0 (sortItems cs).length (pre ++ "│   ")
            (by simp)
          simp [renderTree, renderSpecTree, hrec]
        simp [renderItems, renderSpecItems, hnotlast, hsub, htail]

/-- The source renderer and the spec-worded renderer agree on every tree. -/
theorem renderTree_eq_renderSpecTree (m : List (String × PTree))
    (pre : String) : renderTree m pre = renderSpecTree m pre := by
  have h := render_eq_aux (sizeOf (sortItems m)) (sortItems m) (le_refl _) 0
    (sortItems m).length pre (by simp)
  simp [renderTree, renderSpecTree, h]

/-- Replace the value at key `k` in place, or append `(k, v)` when absent
(Python dict assignment `cur[k] = v`, and the insertion part of
`setdefault`). -/
def setAssoc (m : List (String × PTree)) (k : String) (v : PTree) :
    List (String × PTree) :=
  match m with
  | [] => [(k, v)]
  | (k2, v2) :: rest =>
    if k2 = k then (k, v) :: rest else (k2, v2) :: setAssoc rest k v

/-- Python dict lookup. -/
def lookupAssoc (m : List (String × PTree)) (k : String) : Option PTree :=
  match m with
  | [] => none
  | (k2, v2) :: rest => if k2 = k then some v2 else lookupAssoc rest k

/-- The insertion loop of `generate_tree` (lines 181-187): descend through
`parts[:-1]` with `setdefault(p, {})`, then set the final component to
`None`.  An empty relative path raises `IndexError` (`parts[-1]` on an
empty tuple); descending into an existing file marker raises
`AttributeError` (`None.setdefault`). -/
def insertPath (m : List (String × PTree)) (parts : List String) :
    Except String (List (String × PTree)) :=
  match parts with
  | [] => .error "IndexError"
  | [leaf] => .ok (setAssoc m leaf .file)
  | p :: q :: rest =>
    match lookupAssoc m p with
    | some (.dir sub) =>
      (insertPath sub (q :: rest)).map (fun sub2 => setAssoc m p (.dir sub2))
    | some .file => .error "AttributeError"
    | none =>
      (insertPath [] (q :: rest)).map (fun sub2 => m ++ [(p, .dir sub2)])

/-- Python `Path.relative_to`: strip the root prefix, `ValueError` when the
path is not below the root. -/
def relParts (root f : List String) : Except String (List String) :=
  if root <+: f then .ok (f.drop root.length) else .error "ValueError"

/-- Python `str(PurePosixPath(parts))`: components joined with `/`
(`.` for the empty path). -/
def relStr (parts : List String) : String :=
  if parts = [] then "." else String.intercalate "/" parts

/-- The tree-building loop of `generate_tree` (lines 180-187). -/
def buildTree (root : List String) (files : List FsPath) :
    Except String (List (String × PTree)) :=
  files.foldlM (fun acc f => do
    let rel ← relParts root f
    insertPath acc rel) []

/-- `generate_tree` (lines 178-199): build the tree from the files'
root-relative paths, then render it with the empty prefix. -/
def generate_tree (root : List String) (files : List FsPath) :
    Except String String :=
  (buildTree root files).map (fun m => renderTree m "")

/-- C9: the tree renderer lists each directory's children in lexical
order, uses `└── ` for the last child of a level and `├── ` otherwise,
extends prefixes with four spaces under a closing ancestor and `│   `
under a continuing one, and renders the empty file list as the empty
string. -/
theorem tree_rendering_matches_box_drawing_spec :
    (∀ root : List String, generate_tree root [] = Except.ok "") ∧
    (∀ (root : List String) (files : List FsPath),
      generate_tree root files =
        (buildTree root files).map (fun m => renderSpecTree m "")) ∧
    (∀ (m : List (String × PTree)) (pre : String),
      renderTree m pre = renderSpecTree m pre) := by
  refine ⟨fun root => ?_, fun root files => ?_, renderTree_eq_renderSpecTree⟩
  · show (buildTree root []).map (fun m => renderTree m "") = Except.ok ""
    have hb : buildTree root [] = Except.ok [] := rfl
    rw [hb]
    simp [Except.map, renderTree, renderItems, sortItems]
  · show (buildTree root files).map (fun m => renderTree m "") = _
    cases buildTree root files with
    | ok m => simp [Except.map, renderTree_eq_renderSpecTree]
    | error e => simp [Except.map]

/-- The document header (lines 204-205): title plus generation timestamp. -/
def bundleHeader (now : String) : String :=
  "# 📦 SnapFold Project Snapshot\n\n" ++ "**Generated:** " ++ now ++ "\n\n"

/-- `f.suffix.lstrip('.')` (line 213): fence tag, not lower-cased. -/
def fenceTag (f : FsPath) : String :=
  lstripDots (pySuffix (f.getLast?.getD ""))

/-- The body of a file section (lines 214-218): the file's text, or the
inline placeholder when reading/decoding raises. -/
def contentOf (read : FsPath → Except String String) (f : FsPath) : String :=
  match read f with
  | .ok c => c
  | .error e => "[Error reading file: " ++ e ++ "]"

/-- One file section of the document (lines 211-218): separator, heading
with the root-relative path, fenced content. -/
def blockOf (root : List String) (read : FsPath → Except String String)
    (f : FsPath) : String :=
  "---\n### `" ++ relStr (f.drop root.length) ++ "`\n```" ++ fenceTag f ++
    "\n" ++ contentOf read f ++ "\n```\n\n"

/-- The per-file loop of `bundle_files` (lines 211-218), accumulating into
`md`.  Only `relative_to` can raise here; the read is wrapped in
`try/except`. -/
def bundleLoop (root : List String) (read : FsPath → Except String String) :
    List FsPath → String → Except String String
  | [], acc => .ok acc
  | f :: rest, acc =>
    match relParts root f with
    | .error e => .error e
    | .ok rel =>
      bundleLoop root read rest
        (acc ++ ("---\n### `" ++ relStr rel ++ "`\n```" ++ fenceTag f ++
          "\n" ++ contentOf read f ++ "\n```\n\n"))

/-- `bundle_files` (lines 202-220): header, optional tree section, then one
section per file. -/
def bundle_files (files : List FsPath) (root : List String) (cfg : Config)
    (now : String) (read : FsPath → Except String String) :
    Except String String :=
  match (if cfg.include_tree then
      (generate_tree root files).map
        (fun t => bundleHeader now ++ "## 📁 Project Structure\n" ++
          "```\n" ++ t ++ "```\n\n")
    else Except.ok (bundleHeader now)) with
  | .error e => .error e
  | .ok md => bundleLoop root read files md

/-- Inversion for `relParts`. -/
theorem relParts_ok {root f : List String} {rel : List String}
    (h : relParts root f = Except.ok rel) : rel = f.drop root.length := by
  simp only [relParts] at h
  split at h
  · injection h with h2
    exact h2.symm
  · cases h

/-- A successful loop only appends to its accumulator. -/
theorem bundleLoop_extends (root : List String)
    (read : FsPath → Except String String) :
    ∀ (files : List FsPath) (acc doc : String),
      bundleLoop root read files acc = Except.ok doc →
      ∃ post, doc = acc ++ post := by
  intro files
  induction files with
  | nil =>
    intro acc doc h
    injection h with h2
    exact ⟨"", by rw [← h2, String.append_empty]⟩
  | cons f rest ih =>
    intro acc doc h
    cases hrel : relParts root f with
    | error e => simp [bundleLoop, hrel] at h
    | ok rel =>
      simp only [bundleLoop, hrel] at h
      obtain ⟨post, hpost⟩ := ih _ _ h
      exact ⟨_, by rw [hpost, String.append_assoc]⟩

/-- Every file of the list owns one section of a successfully built
document. -/
theorem bundleLoop_block (root : List String)
    (read : FsPath → Except String String) :
    ∀ (files : List FsPath) (acc doc : String) (f : FsPath),
      bundleLoop root read files acc = Except.ok doc → f ∈ files →
      ∃ pre post, doc = pre ++ blockOf root read f ++ post := by
  intro files
  induction files with
  | nil =>
    intro acc doc f h hf
    exact absurd hf (List.not_mem_nil f)
  | cons g rest ih =>
    intro acc doc f h hf
    cases hrel : relParts root g with
    | error e => simp [bundleLoop, hrel] at h
    | ok rel =>
      have hrel2 : rel = g.drop root.length := relParts_ok hrel
      simp only [bundleLoop, hrel] at h
      rcases List.mem_cons.mp hf with rfl | hf2
      · obtain ⟨post, hpost⟩ := bundleLoop_extends root read rest _ _ h
        refine ⟨acc, post, ?_⟩
        rw [hrel2] at hpost
        simpa only [blockOf] using hpost
      · exact ih _ _ f h hf2

/-- Whether the loop succeeds does not depend on the reader or on the
accumulator. -/
theorem bundleLoop_isOk_indep (root : List String)
    (read₁ read₂ : FsPath → Except String String) :
    ∀ (files : List FsPath) (acc₁ acc₂ : String),
      (bundleLoop root read₁ files acc₁).isOk =
        (bundleLoop root read₂ files acc₂).isOk := by
  intro files
  induction files with
  | nil => intro acc₁ acc₂; rfl
  | cons f rest ih =>
    intro acc₁ acc₂
    cases hrel : relParts root f with
    | error e => simp [bundleLoop, hrel]
    | ok rel =>
      simp only [bundleLoop, hrel]
      exact ih _ _

/-- C1: the Bundler never fails because of an unreadable file — whether it
succeeds is independent of the reader —, a failing read yields the inline
`[Error reading file: …]` placeholder naming the error in that file's own
section, and every file of the list, including those after a failing one,
gets its own section in a successfully built document. -/
theorem bundler_survives_unreadable_files :
    (∀ (files : List FsPath) (root : List String) (cfg : Config)
        (now : String) (read₁ read₂ : FsPath → Except String String),
      (bundle_files files root cfg now read₁).isOk =
        (bundle_files files root cfg now read₂).isOk) ∧
    (∀ (files : List FsPath) (root : List String) (cfg : Config)
        (now : String) (read : FsPath → Except String String) (doc : String)
        (f : FsPath),
      bundle_files files root cfg now read = Except.ok doc → f ∈ files →
      ∃ pre post, doc = pre ++ blockOf root read f ++ post) ∧
    (∀ (root : List String) (read : FsPath → Except String String)
        (f : FsPath) (e : String),
      read f = Except.error e →
      blockOf root read f =
        "---\n### `" ++ relStr (f.drop root.length) ++ "`\n```" ++
          fenceTag f ++ "\n" ++ ("[Error reading file: " ++ e ++ "]") ++
          "\n```\n\n") := by
  refine ⟨?_, ?_, ?_⟩
  · intro files root cfg now read₁ read₂
    cases hit : cfg.include_tree with
    | false =>
      simp only [bundle_files, hit, Bool.false_eq_true, if_false, ite_false]
      exact bundleLoop_isOk_indep root read₁ read₂ files _ _
    | true =>
      simp only [bundle_files, hit, if_true, ite_true]
      cases hg : generate_tree root files with
      | error e => simp [Except.map]
      | ok t =>
        simp only [Except.map]
        exact bundleLoop_isOk_indep root read₁ read₂ files _ _
  · intro files root cfg now read doc f h hf
    rw [bundle_files] at h
    split at h
    · cases h
    · exact bundleLoop_block root read files _ doc f h hf
  · intro root read f e he
    simp only [blockOf, contentOf, he]

/-- The concrete reader of the C1 witness: reading `r/a.css` raises, any
other file yields `body`. -/
def readW : FsPath → Except String String :=
  fun f => if f = ["r", "a.css"] then Except.error "boom" else Except.ok "body"

/-- Witness for C1: with the first of two files unreadable, both files
still own a section of the document and the failing file's section carries
the placeholder naming the error. -/
theorem bundler_survives_unreadable_files_witness :
    (∃ pre post,
      bundleHeader "t" ++ blockOf ["r"] readW ["r", "a.css"] ++
          blockOf ["r"] readW ["r", "b.css"] =
        pre ++ blockOf ["r"] readW ["r", "a.css"] ++ post) ∧
    blockOf ["r"] readW ["r", "a.css"] =
      "---\n### `" ++ relStr ((["r", "a.css"] : FsPath).drop
          (["r"] : List String).length) ++ "`\n```" ++
        fenceTag ["r", "a.css"] ++ "\n" ++
        ("[Error reading file: " ++ "boom" ++ "]") ++ "\n```\n\n" :=
  ⟨bundler_survives_unreadable_files.2.1
      [["r", "a.css"], ["r", "b.css"]] ["r"] ⟨[], 10, [], false, false⟩ "t"
      readW
      (bundleHeader "t" ++ blockOf ["r"] readW ["r", "a.css"] ++
        blockOf ["r"] readW ["r", "b.css"])
      ["r", "a.css"] rfl (by decide),
    bundler_survives_unreadable_files.2.2 ["r"] readW ["r", "a.css"] "boom"
      rfl⟩

end SnapFold
